import Mathlib

/-!
Shallow embedding of the Hertel-Mehlhorn convex decomposition implemented in
`src/guessing_game/src/main.rs`, together with theorems settling the claims
about it.

Modelling conventions:
* A point `(x, y)` of `f64` coordinates is modelled as a pair of rationals;
  the source performs only `+`, `-`, `*`, comparisons and exact equality on
  coordinates, so every concrete computation below (small integer inputs)
  agrees bit-for-bit with the `f64` run.
* A geo `Polygon` is modelled by the coordinate list of its exterior ring
  (`exterior().coords_iter()`), closing duplicate included.  `Polygon::new`
  closes an open `LineString`; `mkRing` models that.
* Rust panics (`panic!`, `.expect`) are modelled by `Option`: `none` is a
  fatal abort returning no partial result.
* The iteration order of the `HashMap` in `find_shared_edges` is not
  deterministic.  `find_shared_edges` below produces the same multiset of
  records in one canonical order, and `hertel_mehlhorn` takes the record list
  as a parameter; order-sensitive statements quantify over permutations.
* The merge loop's recursion (`clipLoop`) carries a fuel argument so that it
  is structural; `triangulate` supplies fuel `coords.length`, which is enough
  for every run because each clip removes exactly one vertex.
-/

attribute [local semireducible] Rat.mul Rat.add Rat.sub

/-- A planar point, modelling `type Point = (OrderedFloat<f64>, OrderedFloat<f64>)`. -/
abbrev Point : Type := ℚ × ℚ

/-- An edge as an (ordered here, canonicalized by `normEdge`) pair of points,
modelling `type Edge = (Point, Point)`. -/
abbrev Edge : Type := Point × Point

/-- Default point used for the (always in-bounds in reachable code) list indexing. -/
def origin : Point := (0, 0)

/-- `fn cross_product`: `(p2.x - p1.x) * (p3.y - p2.y) - (p2.y - p1.y) * (p3.x - p2.x)`. -/
def cross_product (p1 p2 p3 : Point) : ℚ :=
  (p2.1 - p1.1) * (p3.2 - p2.2) - (p2.2 - p1.2) * (p3.1 - p2.1)

/-- `fn is_convex`: `cross_product(p1, p2, p3) >= 0.0`. -/
def is_convex (p1 p2 p3 : Point) : Bool :=
  decide (0 ≤ cross_product p1 p2 p3)

/-- `fn point_in_triangle`: all three edge cross products have the same sign
(inclusively). -/
def point_in_triangle (pt v1 v2 v3 : Point) : Bool :=
  let d1 := cross_product v1 v2 pt
  let d2 := cross_product v2 v3 pt
  let d3 := cross_product v3 v1 pt
  (decide (0 ≤ d1) && decide (0 ≤ d2) && decide (0 ≤ d3)) ||
    (decide (d1 ≤ 0) && decide (d2 ≤ 0) && decide (d3 ≤ 0))

/-- `Polygon::new(LineString::from(v), vec![])`: geo closes the exterior ring by
appending the first coordinate when the ring is not already closed. -/
def mkRing (v : List Point) : List Point :=
  if v.head? = v.getLast? then v else v ++ v.head?.toList

/-- The working vertex list of `triangulate`: the stored ring with the closing
duplicate popped when present (`if coords.first() == coords.last() { coords.pop(); }`). -/
def workingOf (coords : List Point) : List Point :=
  if coords.head? = coords.getLast? then coords.dropLast else coords

/-- `fn is_ear`: no vertex other than the triangle's own three lies in
(the closed) triangle `(prev, curr, next)`. -/
def is_ear (coords : List Point) (prev_idx curr_idx next_idx : Nat) : Bool :=
  let p1 := coords.getD prev_idx origin
  let p2 := coords.getD curr_idx origin
  let p3 := coords.getD next_idx origin
  (List.range coords.length).all fun j =>
    decide (j = prev_idx) || decide (j = curr_idx) || decide (j = next_idx) ||
      !point_in_triangle (coords.getD j origin) p1 p2 p3

/-- The body of `triangulate`'s ear scan at index `i`: the vertex is convex and
the triangle it forms with its cyclic neighbours is an ear. -/
def isEarVertex (coords : List Point) (i : Nat) : Bool :=
  let n := coords.length
  let prev_idx := (i + n - 1) % n
  let next_idx := (i + 1) % n
  is_convex (coords.getD prev_idx origin) (coords.getD i origin)
      (coords.getD next_idx origin) &&
    is_ear coords prev_idx i next_idx

/-- The ear scan `for i in 0..coords.len()`: first index passing `isEarVertex`. -/
def findEarIdx (coords : List Point) : Option Nat :=
  (List.range coords.length).find? (isEarVertex coords)

/-- The triangle `vec![p_prev, p_curr, p_next, p_prev]` emitted when clipping
the ear at index `i`, wrapped in `Polygon::new`. -/
def earTriangle (coords : List Point) (i : Nat) : List Point :=
  let n := coords.length
  let p_prev := coords.getD ((i + n - 1) % n) origin
  let p_curr := coords.getD i origin
  let p_next := coords.getD ((i + 1) % n) origin
  mkRing [p_prev, p_curr, p_next, p_prev]

/-- The `while coords.len() > 3` loop of `triangulate`, with a fuel argument
making the recursion structural.  One clip removes one vertex, so fuel
`coords.length` (what `triangulate` passes) never runs out; `none` is the
`panic!("No ears found ...")` abort. -/
def clipLoop : Nat → List Point → List (List Point) → Option (List (List Point))
  | fuel, coords, acc =>
    if 3 < coords.length then
      match findEarIdx coords with
      | none => none
      | some i =>
        match fuel with
        | 0 => none
        | fuel' + 1 => clipLoop fuel' (coords.eraseIdx i) (acc ++ [earTriangle coords i])
    else
      some (acc ++ [mkRing [coords.getD 0 origin, coords.getD 1 origin,
        coords.getD 2 origin, coords.getD 0 origin]])

/-- `fn triangulate`: panic when fewer than 4 stored coordinates, else pop the
closing duplicate and clip ears until 3 vertices remain. -/
def triangulate (polygon : List Point) : Option (List (List Point)) :=
  if polygon.length < 4 then none
  else clipLoop (workingOf polygon).length (workingOf polygon) []

/-- Observer used to state the failure condition of `triangulate`: following the
algorithm's own clipping choices, some reached working list still has more than
3 vertices and its full ear scan finds no ear. -/
def stuckScan : Nat → List Point → Bool
  | fuel, coords =>
    if 3 < coords.length then
      match findEarIdx coords with
      | none => true
      | some i =>
        match fuel with
        | 0 => false
        | fuel' + 1 => stuckScan fuel' (coords.eraseIdx i)
    else false

/-- The ear-clipping run from `coords` gets stuck (full scan without an ear). -/
def stuck (coords : List Point) : Bool :=
  stuckScan coords.length coords

/-- `fn is_polygon_convex`: every stored ring coordinate, against its cyclic
predecessor and successor, passes `is_convex`. -/
def is_polygon_convex (coords : List Point) : Bool :=
  let n := coords.length
  (List.range n).all fun i =>
    is_convex (coords.getD ((i + n - 1) % n) origin) (coords.getD i origin)
      (coords.getD ((i + 1) % n) origin)

/-- The window predicate of `fn find_shared_edge`: positions `i, i+1` hold the
shared edge in either direction. -/
def edgeMatchAt (coords : List Point) (shared_start shared_end : Point) (i : Nat) : Bool :=
  (decide (coords.getD i origin = shared_start) &&
      decide (coords.getD (i + 1) origin = shared_end)) ||
    (decide (coords.getD i origin = shared_end) &&
      decide (coords.getD (i + 1) origin = shared_start))

/-- `fn find_shared_edge`: `coords.windows(2).position(...)`; `none` models the
`.expect("Shared edge not found in polygon")` panic. -/
def find_shared_edge (coords : List Point) (shared_start shared_end : Point) : Option Nat :=
  (List.range (coords.length - 1)).find? (edgeMatchAt coords shared_start shared_end)

/-- `fn reorder_polygon`, including its (dead, since `idx + 1 < len` always
holds for a window index) out-of-range branch. -/
def reorder_polygon (coords : List Point) (shared_edge_idx : Nat) : List Point :=
  (if shared_edge_idx + 1 < coords.length then coords.drop (shared_edge_idx + 1) else []) ++
    coords.take (shared_edge_idx + 1)

/-- `Vec::dedup_by(|a, b| a == b)`: collapse immediately-consecutive equal
points. -/
def dedupConsec : List Point → List Point
  | [] => []
  | a :: rest =>
    match dedupConsec rest with
    | [] => [a]
    | b :: t => if a = b then b :: t else a :: b :: t

/-- `fn merge_polygons`: splice two rings along the shared edge.  `none` models
the `.expect` panic when the edge is not found in one of the rings. -/
def merge_polygons (p1 p2 : List Point) (shared_edge : Edge) : Option (List Point) :=
  match find_shared_edge p1 shared_edge.1 shared_edge.2,
      find_shared_edge p2 shared_edge.1 shared_edge.2 with
  | some idx1, some idx2 =>
    let merged := reorder_polygon p1 idx1 ++
      (reorder_polygon p2 idx2).filter fun c =>
        decide (c ≠ shared_edge.1) && decide (c ≠ shared_edge.2)
    let closed := merged ++ [merged.headD origin]
    some (mkRing (dedupConsec closed))
  | _, _ => none

/-- Lexicographic `<` on coordinate pairs, modelling the `Ord` of
`(OrderedFloat<f64>, OrderedFloat<f64>)`. -/
def pointLt (p q : Point) : Bool :=
  decide (p.1 < q.1) || (decide (p.1 = q.1) && decide (p.2 < q.2))

/-- The canonical form `if edge.0 < edge.1 { edge } else { (edge.1, edge.0) }`. -/
def normEdge (e : Edge) : Edge :=
  if pointLt e.1 e.2 then e else (e.2, e.1)

/-- The three directed edges `(coords[j], coords[(j+1) % 3])`, `j = 0, 1, 2`,
that `find_shared_edges` enumerates for one triangle ring. -/
def triEdges (t : List Point) : List Edge :=
  [(t.getD 0 origin, t.getD 1 origin), (t.getD 1 origin, t.getD 2 origin),
    (t.getD 2 origin, t.getD 0 origin)]

/-- The owner list the hash map accumulates for a canonical edge: each triangle
index once per matching edge occurrence, in scan order (ascending index). -/
def owners (triangles : List (List Point)) (e : Edge) : List Nat :=
  ((List.range triangles.length).map fun i =>
    ((triEdges (triangles.getD i [])).filter fun e' => decide (normEdge e' = e)).map
      fun _ => i).flatten

/-- The distinct canonical edges occurring in the triangle list (the hash map's
key set, in one fixed order; the real iteration order is some permutation). -/
def edgeKeys (triangles : List (List Point)) : List Edge :=
  (((List.range triangles.length).map fun i =>
    (triEdges (triangles.getD i [])).map normEdge).flatten).dedup

/-- `fn find_shared_edges`: the records `(edge, (t1, t2))` for every canonical
edge owned by exactly two triangle occurrences. -/
def find_shared_edges (triangles : List (List Point)) : List (Edge × Nat × Nat) :=
  (edgeKeys triangles).filterMap fun e =>
    match owners triangles e with
    | [i, j] => some (e, i, j)
    | _ => none

/-- The merge-pass state: `(merged_polygons, to_remove)`. -/
abbrev HMState : Type := List (List Point) × List Bool

/-- One iteration of the `for (edge, (t1, t2)) in shared_edges` loop of
`hertel_mehlhorn`. -/
def hmStep (st : HMState) (r : Edge × Nat × Nat) : Option HMState :=
  if st.2.getD r.2.1 false || st.2.getD r.2.2 false then some st
  else
    match merge_polygons (st.1.getD r.2.1 []) (st.1.getD r.2.2 []) r.1 with
    | none => none
    | some merged =>
      if is_polygon_convex merged then
        some (st.1 ++ [merged], (st.2.set r.2.1 true).set r.2.2 true ++ [false])
      else some st

/-- The whole merge pass over the shared-edge records. -/
def hmPass : HMState → List (Edge × Nat × Nat) → Option HMState
  | st, [] => some st
  | st, r :: rs =>
    match hmStep st r with
    | none => none
    | some st' => hmPass st' rs

/-- The final collection: polygons whose retirement flag is still false. -/
def collectFinal (st : HMState) : List (List Point) :=
  (List.range st.1.length).filterMap fun i =>
    if st.2.getD i false then none else some (st.1.getD i [])

/-- The initial merge-pass state: all triangles, all flags false. -/
def initState (tris : List (List Point)) : HMState :=
  (tris, List.replicate tris.length false)

/-- `fn hertel_mehlhorn`, parametrized by the order in which the hash map
yields the shared-edge records. -/
def hertel_mehlhorn (polygon : List Point) (records : List (Edge × Nat × Nat)) :
    Option (List (List Point)) :=
  match triangulate polygon with
  | none => none
  | some tris =>
    match hmPass (initState tris) records with
    | none => none
    | some st => some (collectFinal st)

/-- The shared edge occurs as a consecutive vertex pair, in either direction,
in the ring (the claim's failure condition for `merge_polygons`). -/
def edgeOccurs (coords : List Point) (e : Edge) : Bool :=
  (List.range (coords.length - 1)).any (edgeMatchAt coords e.1 e.2)

/-- Modelled from the claim's words, not the source: rotate the ring to start
immediately AFTER the shared edge's second endpoint `e.2` (wrap-around), the
matched pair sitting at positions `idx, idx + 1`. -/
def rotateAfterSecond (coords : List Point) (e : Edge) (idx : Nat) : List Point :=
  let s := if coords.getD (idx + 1) origin = e.2 then idx + 2 else idx + 1
  coords.drop s ++ coords.take s

/-- Modelled from the claim's words, not the source: `merge_polygons` as the
claim describes it, with the rotation starting immediately after the shared
edge's second endpoint. -/
def merge_polygons_claimed (p1 p2 : List Point) (e : Edge) : Option (List Point) :=
  match find_shared_edge p1 e.1 e.2, find_shared_edge p2 e.1 e.2 with
  | some idx1, some idx2 =>
    let merged := rotateAfterSecond p1 e idx1 ++
      (rotateAfterSecond p2 e idx2).filter fun c =>
        decide (c ≠ e.1) && decide (c ≠ e.2)
    let closed := merged ++ [merged.headD origin]
    some (mkRing (dedupConsec closed))
  | _, _ => none

/-- Rotation as the amended claim words it: the ring starts at the second
vertex of the matched consecutive pair (positions `idx, idx + 1`), i.e.
immediately after the pair's first vertex. -/
def rotateFromPairEnd (coords : List Point) (idx : Nat) : List Point :=
  coords.drop (idx + 1) ++ coords.take (idx + 1)

/-- The amended description of `merge_polygons`: rotate each ring to start at
the second vertex of the first consecutive pair matching the shared edge in
either direction, concatenate with `p2`'s contribution filtered of both edge
endpoints, close, collapse consecutive duplicates; fail when the edge is not
located in one of the rings. -/
def merge_polygons_amended (p1 p2 : List Point) (e : Edge) : Option (List Point) :=
  match find_shared_edge p1 e.1 e.2, find_shared_edge p2 e.1 e.2 with
  | some idx1, some idx2 =>
    let merged := rotateFromPairEnd p1 idx1 ++
      (rotateFromPairEnd p2 idx2).filter fun c =>
        decide (c ≠ e.1) && decide (c ≠ e.2)
    let closed := merged ++ [merged.headD origin]
    some (mkRing (dedupConsec closed))
  | _, _ => none

/-- `r` lies on the closed segment from `p` to `q` (collinear and inside the
bounding box).  Used only to state input validity for counterexamples. -/
def onSegment (p q r : Point) : Bool :=
  decide (cross_product p q r = 0) &&
    decide (min p.1 q.1 ≤ r.1) && decide (r.1 ≤ max p.1 q.1) &&
    decide (min p.2 q.2 ≤ r.2) && decide (r.2 ≤ max p.2 q.2)

/-- Closed segments `[a, b]` and `[c, d]` intersect (properly or at a
boundary point). -/
def segmentsIntersect (a b c d : Point) : Bool :=
  let d1 := cross_product c d a
  let d2 := cross_product c d b
  let d3 := cross_product a b c
  let d4 := cross_product a b d
  ((decide (0 < d1) && decide (d2 < 0) || decide (d1 < 0) && decide (0 < d2)) &&
      (decide (0 < d3) && decide (d4 < 0) || decide (d3 < 0) && decide (0 < d4))) ||
    (decide (d1 = 0) && onSegment c d a) || (decide (d2 = 0) && onSegment c d b) ||
    (decide (d3 = 0) && onSegment a b c) || (decide (d4 = 0) && onSegment a b d)

/-- The open vertex list (no closing duplicate) bounds a simple polygon: at
least 3 pairwise distinct vertices; adjacent boundary edges meet only at their
shared endpoint (no doubling back); non-adjacent edges do not meet at all. -/
def isSimple (verts : List Point) : Bool :=
  let n := verts.length
  decide (3 ≤ n) && decide verts.Nodup &&
    (List.range n).all fun i => (List.range n).all fun j =>
      if decide (i < j) then
        let a := verts.getD i origin
        let b := verts.getD ((i + 1) % n) origin
        let c := verts.getD j origin
        let d := verts.getD ((j + 1) % n) origin
        if decide (j = i + 1) then !onSegment a b d && !onSegment c d a
        else if decide (i = 0) && decide (j = n - 1) then
          !onSegment c d b && !onSegment a b c
        else !segmentsIntersect a b c d
      else true

/-- Twice the shoelace signed area of the cyclic vertex list. -/
def signedAreaTwice (verts : List Point) : ℚ :=
  let n := verts.length
  ((List.range n).map fun i =>
    let p := verts.getD i origin
    let q := verts.getD ((i + 1) % n) origin
    p.1 * q.2 - q.1 * p.2).sum

/-- Counter-clockwise winding: positive signed area. -/
def isCCWList (verts : List Point) : Bool :=
  decide (0 < signedAreaTwice verts)

/-- Flags still false, counted; `collectFinal`'s output length. -/
def countFalse (l : List Bool) : Nat :=
  (l.filter fun b => !b).length

/-- The square input of `fn main` and `test_simple_square_polygon`. -/
def sqRing : List Point := mkRing [(0, 0), (4, 0), (4, 4), (0, 4), (0, 0)]

/-- The two triangles ear clipping produces for the square. -/
def sqTris : List (List Point) :=
  [[(0, 4), (0, 0), (4, 0), (0, 4)], [(4, 0), (4, 4), (0, 4), (4, 0)]]

/-- The single merged polygon `hertel_mehlhorn` returns for the square. -/
def sqM : List Point := [(0, 4), (0, 0), (4, 0), (4, 4), (0, 4)]

/-- The merge-pass state after processing the square's one shared-edge record. -/
def sqFinalState : HMState := (sqTris ++ [sqM], [true, true, false])

/-- A strictly convex counter-clockwise pentagon (open vertex list). -/
def pentPts : List Point := [(0, 0), (4, 0), (6, 3), (2, 6), (-2, 3)]

/-- The pentagon's stored ring, as built by `Polygon::new`. -/
def pentRing : List Point := mkRing pentPts

/-- First triangle of the C8 counterexample: the edge occurs forward. -/
def mpA : List Point := [(0, 0), (4, 0), (4, 4), (0, 0)]

/-- Second triangle of the C8 counterexample: the edge occurs reversed. -/
def mpB : List Point := [(4, 4), (4, 0), (8, 2), (4, 4)]

/-- The shared edge of the C8 counterexample, in canonical order. -/
def mpE : Edge := ((4, 0), (4, 4))

/-! ### Generic list helpers -/

theorem getD_true_lt : ∀ (l : List Bool) (i : Nat), l.getD i false = true → i < l.length
  | [], _, h => by simp at h
  | _ :: _, 0, _ => by simp
  | _ :: l, i + 1, h =>
    Nat.succ_lt_succ (getD_true_lt l i (by simpa using h))

theorem getD_set_self_true : ∀ (l : List Bool) (i : Nat), i < l.length →
    (l.set i true).getD i false = true
  | [], _, h => by simp at h
  | _ :: _, 0, _ => by simp
  | _ :: l, i + 1, h => by
    simpa using getD_set_self_true l i (by simpa using h)

theorem getD_set_ne : ∀ (l : List Bool) (i j : Nat) (b : Bool), i ≠ j →
    (l.set j b).getD i false = l.getD i false
  | [], _, _, _, _ => by simp
  | _ :: _, i, 0, b, h => by
    cases i with
    | zero => exact absurd rfl h
    | succ i => simp
  | _ :: _, 0, j + 1, b, _ => by simp
  | _ :: l, i + 1, j + 1, b, h => by
    simpa using getD_set_ne l i j b (by omega)

theorem countFalse_append (l l' : List Bool) :
    countFalse (l ++ l') = countFalse l + countFalse l' := by
  simp [countFalse, List.filter_append]

theorem countFalse_cons (b : Bool) (l : List Bool) :
    countFalse (b :: l) = (if b then 0 else 1) + countFalse l := by
  cases b <;> simp [countFalse, List.filter_cons] <;> omega

theorem countFalse_replicate : ∀ n : Nat, countFalse (List.replicate n false) = n
  | 0 => rfl
  | n + 1 => by
    rw [List.replicate_succ, countFalse_cons, countFalse_replicate n]
    simp [Nat.add_comm]

theorem countFalse_set_true : ∀ (l : List Bool) (i : Nat), i < l.length →
    l.getD i false = false → countFalse (l.set i true) + 1 = countFalse l
  | [], i, h, _ => by simp at h
  | b :: l, 0, _, hb => by
    have hb' : b = false := by simpa using hb
    subst hb'
    simp [countFalse, List.filter_cons]
  | b :: l, i + 1, h, hb => by
    have ih := countFalse_set_true l i (by simpa using h) (by simpa using hb)
    cases b <;> simp [countFalse, List.filter_cons] at ih ⊢ <;> omega

theorem countFalse_set_true_of_true : ∀ (l : List Bool) (i : Nat),
    l.getD i false = true → countFalse (l.set i true) = countFalse l
  | [], _, h => by simp at h
  | b :: l, 0, hb => by
    have hb' : b = true := by simpa using hb
    subst hb'
    simp [countFalse, List.filter_cons]
  | b :: l, i + 1, hb => by
    have ih := countFalse_set_true_of_true l i (by simpa using hb)
    cases b <;> simp [countFalse, List.filter_cons] at ih ⊢ <;> omega

theorem false_mem_countFalse_pos : ∀ l : List Bool, false ∈ l → 0 < countFalse l
  | b :: l, h => by
    rcases List.mem_cons.mp h with hb | hl
    · subst hb; simp [countFalse, List.filter_cons]
    · have := false_mem_countFalse_pos l hl
      cases b <;> simp [countFalse, List.filter_cons] at this ⊢ <;> omega

theorem filterMap_range_flag_length :
    ∀ (flags : List Bool) (g : Nat → List Point),
      ((List.range flags.length).filterMap fun i =>
        if flags.getD i false then none else some (g i)).length = countFalse flags
  | [], _ => rfl
  | b :: flags, g => by
    have ih := filterMap_range_flag_length flags fun i => g (i + 1)
    rw [List.length_cons, List.range_succ_eq_map, List.filterMap_cons, List.filterMap_map]
    have hcomp : ((fun i => if (b :: flags).getD i false then none else some (g i)) ∘ Nat.succ) =
        fun i => if flags.getD i false then none else some (g (i + 1)) := by
      funext i
      simp [Function.comp]
    rw [hcomp]
    cases b <;> simp [countFalse, List.filter_cons] at ih ⊢ <;> omega

theorem collectFinal_length (polys : List (List Point)) (flags : List Bool)
    (h : polys.length = flags.length) :
    (collectFinal (polys, flags)).length = countFalse flags := by
  unfold collectFinal
  simp only
  rw [h]
  exact filterMap_range_flag_length flags fun i => polys.getD i []

/-! ### Ear-clipping lemmas -/

theorem findEarIdx_lt {coords : List Point} {i : Nat} (h : findEarIdx coords = some i) :
    i < coords.length :=
  List.mem_range.mp (List.mem_of_find?_eq_some h)

theorem mkRing_closed4 (a b c : Point) : mkRing [a, b, c, a] = [a, b, c, a] := by
  unfold mkRing
  rw [show ([a, b, c, a] : List Point) = [a, b, c] ++ [a] from rfl, List.getLast?_concat]
  simp

theorem earTriangle_shape (coords : List Point) (i : Nat) :
    ∃ a b c, earTriangle coords i = [a, b, c, a] := by
  unfold earTriangle
  exact ⟨_, _, _, mkRing_closed4 _ _ _⟩

theorem clipLoop_count_shape :
    ∀ (fuel : Nat) (coords : List Point) (acc ts : List (List Point)),
      coords.length ≤ fuel + 3 → 3 ≤ coords.length →
      clipLoop fuel coords acc = some ts →
      ts.length + 2 = acc.length + coords.length ∧
        ∀ t ∈ ts, t ∈ acc ∨ ∃ a b c, t = [a, b, c, a] := by
  intro fuel
  induction fuel with
  | zero =>
    intro coords acc ts hfuel h3 h
    rw [clipLoop] at h
    rw [if_neg (by omega)] at h
    obtain rfl : acc ++ [mkRing [coords.getD 0 origin, coords.getD 1 origin,
        coords.getD 2 origin, coords.getD 0 origin]] = ts := by
      simpa using h
    constructor
    · simp; omega
    · intro t ht
      rcases List.mem_append.mp ht with h' | h'
      · exact Or.inl h'
      · right
        have : t = mkRing [coords.getD 0 origin, coords.getD 1 origin,
            coords.getD 2 origin, coords.getD 0 origin] := by simpa using h'
        subst this
        exact ⟨_, _, _, mkRing_closed4 _ _ _⟩
  | succ fuel ih =>
    intro coords acc ts hfuel h3 h
    rw [clipLoop] at h
    by_cases h4 : 3 < coords.length
    · rw [if_pos h4] at h
      cases hfind : findEarIdx coords with
      | none => rw [hfind] at h; exact absurd h (by simp)
      | some i =>
        rw [hfind] at h
        have hi := findEarIdx_lt hfind
        have hlen : (coords.eraseIdx i).length = coords.length - 1 := by
          rw [List.length_eraseIdx, if_pos hi]
        obtain ⟨hcount, hshape⟩ := ih (coords.eraseIdx i)
          (acc ++ [earTriangle coords i]) ts (by omega) (by omega) h
        constructor
        · rw [List.length_append] at hcount
          simp at hcount
          omega
        · intro t ht
          rcases hshape t ht with h' | h'
          · rcases List.mem_append.mp h' with h'' | h''
            · exact Or.inl h''
            · right
              have : t = earTriangle coords i := by simpa using h''
              subst this
              exact earTriangle_shape coords i
          · exact Or.inr h'
    · rw [if_neg h4] at h
      obtain rfl : acc ++ [mkRing [coords.getD 0 origin, coords.getD 1 origin,
          coords.getD 2 origin, coords.getD 0 origin]] = ts := by
        simpa using h
      constructor
      · simp; omega
      · intro t ht
        rcases List.mem_append.mp ht with h' | h'
        · exact Or.inl h'
        · right
          have : t = mkRing [coords.getD 0 origin, coords.getD 1 origin,
              coords.getD 2 origin, coords.getD 0 origin] := by simpa using h'
          subst this
          exact ⟨_, _, _, mkRing_closed4 _ _ _⟩

theorem workingOf_length_ge {poly : List Point} (h : ¬ poly.length < 4) :
    3 ≤ (workingOf poly).length := by
  unfold workingOf
  split
  · simp only [List.length_dropLast]
    omega
  · omega

theorem triangulate_count {poly : List Point} {ts : List (List Point)}
    (h : triangulate poly = some ts) :
    ts.length + 2 = (workingOf poly).length ∧ ∀ t ∈ ts, ∃ a b c, t = [a, b, c, a] := by
  unfold triangulate at h
  split at h
  · exact absurd h (by simp)
  · next h4 =>
    obtain ⟨hc, hs⟩ := clipLoop_count_shape (workingOf poly).length (workingOf poly) [] ts
      (by omega) (workingOf_length_ge h4) h
    refine ⟨by simpa using hc, fun t ht => ?_⟩
    rcases hs t ht with h' | h'
    · simp at h'
    · exact h'

theorem clipLoop_none_iff :
    ∀ (fuel : Nat) (coords : List Point) (acc : List (List Point)),
      coords.length ≤ fuel + 3 →
      (clipLoop fuel coords acc = none ↔ stuckScan fuel coords = true) := by
  intro fuel
  induction fuel with
  | zero =>
    intro coords acc hfuel
    rw [clipLoop, stuckScan]
    rw [if_neg (by omega), if_neg (by omega)]
    simp
  | succ fuel ih =>
    intro coords acc hfuel
    rw [clipLoop, stuckScan]
    by_cases h4 : 3 < coords.length
    · rw [if_pos h4, if_pos h4]
      cases hfind : findEarIdx coords with
      | none => simp
      | some i =>
        have hi := findEarIdx_lt hfind
        have hlen : (coords.eraseIdx i).length = coords.length - 1 := by
          rw [List.length_eraseIdx, if_pos hi]
        exact ih (coords.eraseIdx i) (acc ++ [earTriangle coords i]) (by omega)
    · rw [if_neg h4, if_neg h4]
      simp

/-! ### merge_polygons lemmas -/

theorem find_shared_edge_some_lt {coords : List Point} {s t : Point} {i : Nat}
    (h : find_shared_edge coords s t = some i) : i + 1 < coords.length := by
  have hi := List.mem_range.mp (List.mem_of_find?_eq_some h)
  omega

theorem reorder_polygon_eq_rotate {coords : List Point} {i : Nat} (h : i + 1 < coords.length) :
    reorder_polygon coords i = rotateFromPairEnd coords i := by
  unfold reorder_polygon rotateFromPairEnd
  rw [if_pos h]

theorem find_shared_edge_none_iff (c : List Point) (e : Edge) :
    find_shared_edge c e.1 e.2 = none ↔ edgeOccurs c e = false := by
  unfold find_shared_edge edgeOccurs
  rw [List.find?_eq_none]
  constructor
  · intro h
    rw [← Bool.not_eq_true, List.any_eq_true]
    rintro ⟨x, hx, hpx⟩
    exact h x hx hpx
  · intro h x hx hpx
    rw [← Bool.not_eq_true, List.any_eq_true] at h
    exact h ⟨x, hx, hpx⟩

/-! ### Merge-pass lemmas -/

theorem hmStep_cases (st : HMState) (r : Edge × Nat × Nat) (st' : HMState)
    (h : hmStep st r = some st') :
    st' = st ∨
      (st.2.getD r.2.1 false = false ∧ st.2.getD r.2.2 false = false ∧
        ∃ m, merge_polygons (st.1.getD r.2.1 []) (st.1.getD r.2.2 []) r.1 = some m ∧
          is_polygon_convex m = true ∧
          st' = (st.1 ++ [m], (st.2.set r.2.1 true).set r.2.2 true ++ [false])) := by
  unfold hmStep at h
  split at h
  · left
    injection h with h
    exact h.symm
  · next hcond =>
    have hb : st.2.getD r.2.1 false = false ∧ st.2.getD r.2.2 false = false := by
      constructor <;> revert hcond <;> cases st.2.getD r.2.1 false <;>
        cases st.2.getD r.2.2 false <;> simp
    split at h
    · exact absurd h (by simp)
    · split at h
      · next m hm hconv =>
        right
        injection h with h
        exact ⟨hb.1, hb.2, m, hm, hconv, h.symm⟩
      · left
        injection h with h
        exact h.symm

theorem hmStep_flag_mono {st : HMState} {r : Edge × Nat × Nat} {st' : HMState}
    (h : hmStep st r = some st') (i : Nat) (hi : st.2.getD i false = true) :
    st'.2.getD i false = true := by
  rcases hmStep_cases st r st' h with rfl | ⟨-, -, m, -, -, rfl⟩
  · exact hi
  · have h1 : (st.2.set r.2.1 true).getD i false = true := by
      by_cases hij : i = r.2.1
      · subst hij
        exact getD_set_self_true _ _ (getD_true_lt _ _ hi)
      · rw [getD_set_ne _ _ _ _ hij]
        exact hi
    have h2 : ((st.2.set r.2.1 true).set r.2.2 true).getD i false = true := by
      by_cases hij : i = r.2.2
      · subst hij
        have := getD_true_lt _ _ h1
        rw [List.length_set] at this
        exact getD_set_self_true _ _ (by rw [List.length_set]; exact this)
      · rw [getD_set_ne _ _ _ _ hij]
        exact h1
    have hlen := getD_true_lt _ _ h2
    show (((st.2.set r.2.1 true).set r.2.2 true) ++ [false]).getD i false = true
    rw [List.getD_append _ _ _ _ hlen]
    exact h2

theorem hmPass_flag_mono :
    ∀ (rs : List (Edge × Nat × Nat)) (st st' : HMState),
      hmPass st rs = some st' → ∀ i, st.2.getD i false = true → st'.2.getD i false = true
  | [], st, st', h, i, hi => by
    obtain rfl : st = st' := by simpa [hmPass] using h
    exact hi
  | r :: rs, st, st', h, i, hi => by
    rw [hmPass] at h
    cases hstep : hmStep st r with
    | none => rw [hstep] at h; exact absurd h (by simp)
    | some st₁ =>
      rw [hstep] at h
      exact hmPass_flag_mono rs st₁ st' h i (hmStep_flag_mono hstep i hi)

theorem hmPass_polys_extend :
    ∀ (rs : List (Edge × Nat × Nat)) (st st' : HMState),
      hmPass st rs = some st' → ∃ ext, st'.1 = st.1 ++ ext
  | [], st, st', h => by
    obtain rfl : st = st' := by simpa [hmPass] using h
    exact ⟨[], by simp⟩
  | r :: rs, st, st', h => by
    rw [hmPass] at h
    cases hstep : hmStep st r with
    | none => rw [hstep] at h; exact absurd h (by simp)
    | some st₁ =>
      rw [hstep] at h
      obtain ⟨ext₁, hext₁⟩ := hmPass_polys_extend rs st₁ st' h
      rcases hmStep_cases st r st₁ hstep with rfl | ⟨-, -, m, -, -, rfl⟩
      · exact ⟨ext₁, hext₁⟩
      · exact ⟨m :: ext₁, by rw [hext₁]; simp⟩

theorem hmPass_length_invariant (n : Nat) :
    ∀ (rs : List (Edge × Nat × Nat)) (st st' : HMState),
      hmPass st rs = some st' → st.1.length = st.2.length → n ≤ st.2.length →
      st'.1.length = st'.2.length ∧ n ≤ st'.2.length
  | [], st, st', h, h1, h2 => by
    obtain rfl : st = st' := by simpa [hmPass] using h
    exact ⟨h1, h2⟩
  | r :: rs, st, st', h, h1, h2 => by
    rw [hmPass] at h
    cases hstep : hmStep st r with
    | none => rw [hstep] at h; exact absurd h (by simp)
    | some st₁ =>
      rw [hstep] at h
      rcases hmStep_cases st r st₁ hstep with rfl | ⟨-, -, m, -, -, rfl⟩
      · exact hmPass_length_invariant n rs _ st' h h1 h2
      · refine hmPass_length_invariant n rs _ st' h ?_ ?_
        · simp [List.length_set, h1]
        · simp [List.length_set]
          omega

theorem hmPass_count_invariant (n : Nat) :
    ∀ (rs : List (Edge × Nat × Nat)) (st st' : HMState),
      (∀ r ∈ rs, r.2.1 < n ∧ r.2.2 < n) →
      hmPass st rs = some st' → n ≤ st.2.length → false ∈ st.2 → countFalse st.2 ≤ n →
      false ∈ st'.2 ∧ countFalse st'.2 ≤ n
  | [], st, st', _, h, _, hmem, hcount => by
    obtain rfl : st = st' := by simpa [hmPass] using h
    exact ⟨hmem, hcount⟩
  | r :: rs, st, st', hb, h, hlen, hmem, hcount => by
    rw [hmPass] at h
    cases hstep : hmStep st r with
    | none => rw [hstep] at h; exact absurd h (by simp)
    | some st₁ =>
      rw [hstep] at h
      have hb1 := (hb r (List.mem_cons_self r rs)).1
      have hb2 := (hb r (List.mem_cons_self r rs)).2
      have hbtail : ∀ x ∈ rs, x.2.1 < n ∧ x.2.2 < n := fun x hx =>
        hb x (List.mem_cons_of_mem r hx)
      rcases hmStep_cases st r st₁ hstep with rfl | ⟨hf1, hf2, m, -, -, rfl⟩
      · exact hmPass_count_invariant n rs _ st' hbtail h hlen hmem hcount
      · refine hmPass_count_invariant n rs _ st' hbtail h ?_ ?_ ?_
        · simp [List.length_set]
          omega
        · simp
        · show countFalse (((st.2.set r.2.1 true).set r.2.2 true) ++ [false]) ≤ n
          rw [countFalse_append]
          have hone : countFalse [false] = 1 := rfl
          have hc1 : countFalse (st.2.set r.2.1 true) + 1 = countFalse st.2 :=
            countFalse_set_true st.2 r.2.1 (by omega) hf1
          by_cases hte : r.2.2 = r.2.1
          · rw [hte]
            have ht : (st.2.set r.2.1 true).getD r.2.1 false = true :=
              getD_set_self_true _ _ (by omega)
            rw [countFalse_set_true_of_true _ _ ht]
            omega
          · have hne : (st.2.set r.2.1 true).getD r.2.2 false = false := by
              rw [getD_set_ne _ _ _ _ hte]
              exact hf2
            have hc2 : countFalse ((st.2.set r.2.1 true).set r.2.2 true) + 1 =
                countFalse (st.2.set r.2.1 true) :=
              countFalse_set_true _ _ (by rw [List.length_set]; omega) hne
            omega

/-! ### Shared-edge index lemmas -/

theorem owners_mem_lt {triangles : List (List Point)} {e : Edge} {k : Nat}
    (h : k ∈ owners triangles e) : k < triangles.length := by
  unfold owners at h
  rw [List.mem_flatten] at h
  obtain ⟨sub, hsub, hk⟩ := h
  rw [List.mem_map] at hsub
  obtain ⟨i, hi, rfl⟩ := hsub
  rw [List.mem_map] at hk
  obtain ⟨-, -, rfl⟩ := hk
  exact List.mem_range.mp hi

theorem find_shared_edges_lt (triangles : List (List Point)) (r : Edge × Nat × Nat)
    (h : r ∈ find_shared_edges triangles) :
    r.2.1 < triangles.length ∧ r.2.2 < triangles.length := by
  unfold find_shared_edges at h
  rw [List.mem_filterMap] at h
  obtain ⟨e, -, hfe⟩ := h
  cases ho : owners triangles e with
  | nil => rw [ho] at hfe; exact absurd hfe (by simp)
  | cons i t =>
    cases t with
    | nil => rw [ho] at hfe; exact absurd hfe (by simp)
    | cons j t' =>
      cases t' with
      | nil =>
        rw [ho] at hfe
        obtain rfl : (e, i, j) = r := by simpa using hfe
        exact ⟨owners_mem_lt (by rw [ho]; simp), owners_mem_lt (by rw [ho]; simp)⟩
      | cons k t'' => rw [ho] at hfe; exact absurd hfe (by simp)

theorem triangulate_some_min_len {poly : List Point} {ts : List (List Point)}
    (h : triangulate poly = some ts) : ¬ poly.length < 4 := by
  unfold triangulate at h
  intro h4
  rw [if_pos h4] at h
  exact absurd h (by simp)

/-! ### Claim theorems -/

/-- Claim C4: for every input polygon on which `triangulate` returns without
panicking, the returned list holds exactly `n - 2` triangles for the `n`-vertex
working list (the stored ring with its closing duplicate removed), and every
returned triangle is stored as a closed 4-point ring `[p_prev, p_curr, p_next,
p_prev]`. -/
theorem triangulate_count_and_shape (poly : List Point) (ts : List (List Point))
    (h : triangulate poly = some ts) :
    ts.length + 2 = (workingOf poly).length ∧ ∀ t ∈ ts, ∃ a b c, t = [a, b, c, a] :=
  triangulate_count h

/-- Witness for C4: the square input, whose 4-vertex working list yields the
two concrete triangles `sqTris`. -/
theorem triangulate_count_and_shape_witness :
    sqTris.length + 2 = (workingOf sqRing).length ∧
      ∀ t ∈ sqTris, ∃ a b c, t = [a, b, c, a] :=
  triangulate_count_and_shape sqRing sqTris (by decide)

/-- Claim C5: `is_polygon_convex` returns true exactly when `is_convex` holds
at every one of the `m` stored boundary vertices, with cyclic predecessor and
successor — the check is performed at every vertex of the ring, none excepted. -/
theorem is_polygon_convex_checks_every_vertex (coords : List Point) :
    is_polygon_convex coords = true ↔
      ∀ i, i < coords.length →
        is_convex (coords.getD ((i + coords.length - 1) % coords.length) origin)
          (coords.getD i origin) (coords.getD ((i + 1) % coords.length) origin) = true := by
  simp only [is_polygon_convex]
  rw [List.all_eq_true]
  exact ⟨fun h i hi => h i (List.mem_range.mpr hi), fun h i hi => h i (List.mem_range.mp hi)⟩

/-- Claim C6: `triangulate` aborts fatally (returning no partial result,
modelled by `none`) iff the stored coordinate ring has fewer than 4 points or
the clipping run reaches a working list of more than 3 vertices whose full ear
scan finds no ear; in particular 1-point and 2-point polygons abort fatally. -/
theorem triangulate_failure_characterization :
    (∀ poly : List Point, triangulate poly = none ↔
      poly.length < 4 ∨ stuck (workingOf poly) = true) ∧
    (∀ p q : Point, triangulate (mkRing [p]) = none ∧ triangulate (mkRing [p, q]) = none) := by
  constructor
  · intro poly
    unfold triangulate
    by_cases h4 : poly.length < 4
    · simp [h4]
    · rw [if_neg h4]
      rw [clipLoop_none_iff (workingOf poly).length (workingOf poly) [] (by omega)]
      unfold stuck
      simp [h4]
  · intro p q
    constructor
    · have hlen : (mkRing [p]).length < 4 := by
        unfold mkRing
        split <;> simp
      simp [triangulate, hlen]
    · have hlen : (mkRing [p, q]).length < 4 := by
        unfold mkRing
        split <;> simp
      simp [triangulate, hlen]

/-- Claim C8 counterexample: at the concrete triangles `mpA`, `mpB` with shared
edge `mpE` (matched forward in `mpA`), the ring produced by the code differs
from the ring described by the claim's rotation rule ("start immediately after
the shared edge's second endpoint"): the code starts the rotation AT the
matched pair's second vertex. -/
theorem merge_polygons_rotation_counterexample :
    merge_polygons mpA mpB mpE = some [(4, 4), (0, 0), (4, 0), (8, 2), (4, 4)] ∧
    merge_polygons_claimed mpA mpB mpE = some [(0, 0), (4, 0), (4, 4), (8, 2), (0, 0)] ∧
    merge_polygons_claimed mpA mpB mpE ≠ merge_polygons mpA mpB mpE := by
  exact ⟨by decide, by decide, by decide⟩

/-- Claim C8 (amended): `merge_polygons` rotates each ring to start at the
second vertex of the first consecutive pair matching the shared edge in either
direction, concatenates `p1`'s rotated ring with `p2`'s rotated ring filtered
of both edge endpoints, closes the ring and collapses consecutive duplicates;
and it fails (fatally) iff the edge, in either direction, does not occur as a
consecutive vertex pair in one of the two boundary rings. -/
theorem merge_polygons_characterization :
    (∀ (p1 p2 : List Point) (e : Edge),
      merge_polygons p1 p2 e = merge_polygons_amended p1 p2 e) ∧
    (∀ (p1 p2 : List Point) (e : Edge),
      merge_polygons p1 p2 e = none ↔
        (edgeOccurs p1 e = false ∨ edgeOccurs p2 e = false)) := by
  constructor
  · intro p1 p2 e
    unfold merge_polygons merge_polygons_amended
    cases h1 : find_shared_edge p1 e.1 e.2 <;> cases h2 : find_shared_edge p2 e.1 e.2 <;>
      simp only
    rw [reorder_polygon_eq_rotate (find_shared_edge_some_lt h1),
      reorder_polygon_eq_rotate (find_shared_edge_some_lt h2)]
  · intro p1 p2 e
    unfold merge_polygons
    cases h1 : find_shared_edge p1 e.1 e.2 <;> cases h2 : find_shared_edge p2 e.1 e.2 <;>
      simp only
    · simp [(find_shared_edge_none_iff p1 e).mp h1]
    · simp [(find_shared_edge_none_iff p1 e).mp h1]
    · simp [(find_shared_edge_none_iff p2 e).mp h2]
    · have o1 : edgeOccurs p1 e = true := by
        cases ho : edgeOccurs p1 e
        · rw [← find_shared_edge_none_iff p1 e, h1] at ho
          exact absurd ho (by simp)
        · rfl
      have o2 : edgeOccurs p2 e = true := by
        cases ho : edgeOccurs p2 e
        · rw [← find_shared_edge_none_iff p2 e, h2] at ho
          exact absurd ho (by simp)
        · rfl
      simp [o1, o2]

/-- Claim C3 counterexample: the strictly convex, simple, counter-clockwise
pentagon `pentPts` passes the code's own convexity test, yet for every
iteration order of its two shared-edge records `hertel_mehlhorn` completes and
returns 2 convex pieces, not 1 — the single greedy pass never re-merges a
merged polygon. -/
theorem hm_convex_pentagon_not_single_piece :
    isSimple pentPts = true ∧ isCCWList pentPts = true ∧
    is_polygon_convex pentRing = true ∧
    ((find_shared_edges ((triangulate pentRing).getD [])).permutations'.all fun rs =>
      decide ((hertel_mehlhorn pentRing rs).map List.length = some 2)) = true := by
  exact ⟨by decide, by decide, by decide, by decide⟩

/-- Claim C3 (amended): for the already-convex square input, `hertel_mehlhorn`
returns exactly one polygon for every shared-edge iteration order, and that
polygon equals the input as a point set; in general a convex input may yield
more than one piece. -/
theorem hm_square_single_piece :
    triangulate sqRing = some sqTris ∧
    ((find_shared_edges sqTris).permutations'.all fun rs =>
      decide (hertel_mehlhorn sqRing rs = some [sqM])) = true ∧
    (sqM.all fun p => decide (p ∈ sqRing)) = true ∧
    (sqRing.all fun p => decide (p ∈ sqM)) = true := by
  exact ⟨by decide, by decide, by decide, by decide⟩

/-- Claim C7: throughout one merge pass, (1) a retirement flag once set true is
never cleared; (2) one step either leaves the state unchanged or performs a
merge, and it performs a merge only when both participating indices are
unretired at that moment, appending the merged polygon and retiring exactly the
two inputs; (3) the first `tris.length` entries of the polygon list are the
original triangulation triangles at every point of the pass, so every merge —
whose indices come from `find_shared_edges` and are below `tris.length`
(`hm_index_safety`) — reads original triangles, never a polygon appended by an
earlier merge. -/
theorem hm_merge_pass_retirement :
    (∀ (st : HMState) (rs : List (Edge × Nat × Nat)) (st' : HMState),
        hmPass st rs = some st' →
        ∀ i, st.2.getD i false = true → st'.2.getD i false = true) ∧
    (∀ (st : HMState) (r : Edge × Nat × Nat) (st' : HMState),
        hmStep st r = some st' →
        st' = st ∨
          (st.2.getD r.2.1 false = false ∧ st.2.getD r.2.2 false = false ∧
            ∃ m, merge_polygons (st.1.getD r.2.1 []) (st.1.getD r.2.2 []) r.1 = some m ∧
              is_polygon_convex m = true ∧
              st' = (st.1 ++ [m], (st.2.set r.2.1 true).set r.2.2 true ++ [false]))) ∧
    (∀ (tris : List (List Point)) (rs : List (Edge × Nat × Nat)) (st' : HMState),
        hmPass (initState tris) rs = some st' →
        ∀ i, i < tris.length → st'.1.getD i [] = tris.getD i []) := by
  refine ⟨fun st rs st' h => hmPass_flag_mono rs st st' h,
    fun st r st' h => hmStep_cases st r st' h,
    fun tris rs st' h i hi => ?_⟩
  obtain ⟨ext, hext⟩ := hmPass_polys_extend rs _ st' h
  rw [hext]
  show (tris ++ ext).getD i [] = tris.getD i []
  exact List.getD_append tris ext [] i hi

/-- Witness for C7: the square's merge pass, after processing its one
shared-edge record, still holds the original first triangle at index 0. -/
theorem hm_merge_pass_retirement_witness :
    sqFinalState.1.getD 0 [] = sqTris.getD 0 [] :=
  hm_merge_pass_retirement.2.2 sqTris (find_shared_edges sqTris) sqFinalState
    (by decide) 0 (by decide)

/-- Claim C9: whenever `hertel_mehlhorn` completes — for any iteration order of
the shared-edge records — the number of returned pieces is at least 1 and at
most the number of triangles produced by triangulation, which is `n - 2` for
the `n`-vertex working list. -/
theorem hm_piece_count_bounds (poly : List Point) (tris : List (List Point))
    (rs : List (Edge × Nat × Nat)) (out : List (List Point))
    (h1 : triangulate poly = some tris) (h2 : rs.Perm (find_shared_edges tris))
    (h3 : hertel_mehlhorn poly rs = some out) :
    1 ≤ out.length ∧ out.length ≤ tris.length ∧
      tris.length + 2 = (workingOf poly).length := by
  unfold hertel_mehlhorn at h3
  rw [h1] at h3
  dsimp only at h3
  cases hp : hmPass (initState tris) rs with
  | none => rw [hp] at h3; exact absurd h3 (by simp)
  | some st =>
    rw [hp] at h3
    obtain rfl : collectFinal st = out := by simpa using h3
    have hw := workingOf_length_ge (triangulate_some_min_len h1)
    have hcount := (triangulate_count h1).1
    have hn1 : 1 ≤ tris.length := by omega
    have hbounds : ∀ r ∈ rs, r.2.1 < tris.length ∧ r.2.2 < tris.length := fun r hr =>
      find_shared_edges_lt tris r (h2.mem_iff.mp hr)
    have hleninv := hmPass_length_invariant tris.length rs (initState tris) st hp
      (by simp [initState]) (by simp [initState])
    have hcinv := hmPass_count_invariant tris.length rs (initState tris) st hbounds hp
      (by simp [initState])
      (by
        show false ∈ List.replicate tris.length false
        exact List.mem_replicate.mpr ⟨by omega, rfl⟩)
      (by
        show countFalse (List.replicate tris.length false) ≤ tris.length
        rw [countFalse_replicate])
    have hout : (collectFinal st).length = countFalse st.2 := by
      have := collectFinal_length st.1 st.2 hleninv.1
      simpa using this
    refine ⟨?_, ?_, hcount⟩
    · rw [hout]
      exact false_mem_countFalse_pos _ hcinv.1
    · rw [hout]
      exact hcinv.2

/-- Witness for C9: the square run returns exactly one piece, with bounds
`1 ≤ 1 ≤ 2` and `2 + 2 = 4`. -/
theorem hm_piece_count_bounds_witness :
    1 ≤ ([sqM] : List (List Point)).length ∧
      ([sqM] : List (List Point)).length ≤ sqTris.length ∧
      sqTris.length + 2 = (workingOf sqRing).length :=
  hm_piece_count_bounds sqRing sqTris (find_shared_edges sqTris) [sqM] (by decide)
    (List.Perm.refl _) (by decide)

/-- Claim C10: (1) both triangle indices of every record returned by
`find_shared_edges` are strictly below the triangle count; (2) from any state
whose polygon and flag lists have equal length at least `n`, the merge pass
preserves both properties at every iteration — hence, with (1), every indexing
of `to_remove` and `merged_polygons` performed by the pass and by the final
filter is in bounds and no out-of-bounds panic can occur. -/
theorem hm_index_safety :
    (∀ (triangles : List (List Point)) (r : Edge × Nat × Nat),
        r ∈ find_shared_edges triangles →
        r.2.1 < triangles.length ∧ r.2.2 < triangles.length) ∧
    (∀ (n : Nat) (rs : List (Edge × Nat × Nat)) (st st' : HMState),
        hmPass st rs = some st' → st.1.length = st.2.length → n ≤ st.2.length →
        st'.1.length = st'.2.length ∧ n ≤ st'.2.length) :=
  ⟨find_shared_edges_lt,
    fun n rs st st' h h1 h2 => hmPass_length_invariant n rs st st' h h1 h2⟩

/-- Witness for C10: the square's pass keeps the two lists at equal length 3,
at least the triangle count 2. -/
theorem hm_index_safety_witness :
    sqFinalState.1.length = sqFinalState.2.length ∧ 2 ≤ sqFinalState.2.length :=
  hm_index_safety.2 2 (find_shared_edges sqTris) (initState sqTris) sqFinalState
    (by decide) (by decide) (by decide)
